import Mathlib

/-!
Verification of ComfyUI-LG_SamplingUtils against its specification.

Shallow embedding of the per-step sampling-utility logic:
- `TimestepNoise` models `src/py/timestep_noise.py` (`ZImageTimestepNoise.patch`
  and the closure `unet_wrapper`); scalar noise levels, strengths and random
  draws are modelled as rationals.
- `SigmasEditor` models `src/py/sigmas_editor.py` (`SigmasEditor.adjust_sigmas`);
  the schedule is a list of rationals, the JSON adjustment string is modelled as
  `Option (List ℚ)` (`none` = the string failed to parse, in which case the code
  sets `adjusted_values = []`), and the result is `Option (List ℚ)` (`none` = the
  code raised, which happens only for an empty input schedule where
  `sigmas_np[-1]` is an out-of-bounds index).
- `NoiseInjection` models `src/py/noise_injection.py` (`LGNoiseInjection.apply`
  and the closure `cfg_function`); tensors are flat lists of reals (inputs are
  taken already shape-aligned, so the resize/broadcast branches of the source,
  which are identities on shape-matched tensors, do not appear), and
  `torch.Tensor.std` is the Bessel-corrected standard deviation.
-/

namespace TimestepNoise

/-- Noise mode of `ZImageTimestepNoise` (`mode` input: `"sigma"` or `"flow"`). -/
inductive NoiseMode where
  | sigma
  | flow
  deriving DecidableEq, Repr

/-- torch.clamp(x, 0.0, 1.0) on a scalar. -/
def clamp01 (x : ℚ) : ℚ := min (max x 0) 1

/-- The delta computed by the `flow` branch of `unet_wrapper`
(timestep_noise.py lines 146-161): headrooms, per-side clamped strength, and
the linear map of the draw `r` onto `[-actual_down, +actual_up]`, guarded by
the `total_range > 1e-6` test. -/
def flowDelta (t strength r : ℚ) : ℚ :=
  let headroom_up := 1 - t
  let headroom_down := t - 0
  let actual_up := min strength headroom_up
  let actual_down := min strength headroom_down
  let total_range := actual_down + actual_up
  if total_range > 1 / 1000000 then r * total_range - actual_down else 0

/-- The perturbed timestep of the `flow` branch (lines 163-165):
`t + delta`, clamped to `[0, 1]`. -/
def flowPerturb (t strength r : ℚ) : ℚ :=
  clamp01 (t + flowDelta t strength r)

/-- The scan loop of `unet_wrapper` (lines 103-109) from an intermediate
state: `l` is the remaining schedule, `i` the index of its head, and
`best = (min_diff, matched_idx)` the current best; only a strictly smaller
absolute difference replaces the best. -/
def matchFrom (q : ℚ) : List ℚ → ℕ → ℚ × ℕ → ℚ × ℕ
  | [], _, best => best
  | s :: rest, i, best =>
      if |s - q| < best.1 then matchFrom q rest (i + 1) (|s - q|, i)
      else matchFrom q rest (i + 1) best

/-- `matched_idx` after the scan (lines 103-109).  The loop starts with
`min_diff = inf`, so a nonempty schedule's head always replaces the initial
best; on an empty schedule `matched_idx` stays `0`. -/
def matchedIdx (sigmas : List ℚ) (q : ℚ) : ℕ :=
  match sigmas with
  | [] => 0
  | s :: rest => (matchFrom q rest 1 (|s - q|, 0)).2

/-- `progress` from `matched_idx` (lines 112-113): `idx / total_steps` when
`total_steps > 0` else `0`, then clamped to `[0, 1]`. -/
def progressOfIdx (totalSteps idx : ℕ) : ℚ :=
  let p : ℚ := if totalSteps > 0 then (idx : ℚ) / (totalSteps : ℚ) else 0
  max 0 (min 1 p)

/-- A per-seed uniform random source: `rand s` is the value drawn by
`torch.rand(1, generator=g)` after `g.manual_seed s`.  The generator is
external (PyTorch); the wrapper only fixes which seed it is given. -/
def RandSource : Type := ℕ → ℚ

/-- The perturbed timestep of `unet_wrapper` (lines 135-165): the random
source is seeded with `stored_seed + current_step` and one draw decides the
perturbation, multiplicative in `sigma` mode (line 142-143), additive with
headroom clamping in `flow` mode. -/
def perturbedTimestep (mode : NoiseMode) (strength : ℚ) (rand : RandSource)
    (seed step : ℕ) (t : ℚ) : ℚ :=
  let r := rand (seed + step)
  match mode with
  | .sigma => t * (1 + (r - 1 / 2) * strength)
  | .flow => flowPerturb t strength r

/-- The state captured by one attachment of the `unet_wrapper` closure
(timestep_noise.py lines 81-89): the schedule as a list, the mode, strength,
seed, window, optional mask, and the derived `total_steps = len(sigma_list) - 1`
is recomputed from the list. -/
structure UnetParams where
  stored_sigmas : List ℚ
  stored_mode : NoiseMode
  stored_strength : ℚ
  stored_seed : ℕ
  stored_start : ℚ
  stored_end : ℚ
  stored_mask : Option (List ℚ)

/-- The timestep that `unet_wrapper` passes to `apply_model_func` on its
unmasked path (lines 91-195): match the current noise level against the
stored schedule, compute progress, and use the perturbed timestep exactly
when progress lies in the stored window (`current_step` is the incremented
step counter, line 96-97). -/
def unetTimestep (p : UnetParams) (rand : RandSource) (current_step : ℕ)
    (t : ℚ) : ℚ :=
  let matched_idx := matchedIdx p.stored_sigmas t
  let total_steps := p.stored_sigmas.length - 1
  let progress := progressOfIdx total_steps matched_idx
  let in_range := p.stored_start ≤ progress ∧ progress ≤ p.stored_end
  let noisy :=
    perturbedTimestep p.stored_mode p.stored_strength rand p.stored_seed current_step t
  if in_range then noisy else t

end TimestepNoise

namespace SigmasEditor

/-- Set the final element of a nonempty list to `v` (`adjusted_sigmas[-1] = v`). -/
def setLast (xs : List ℚ) (v : ℚ) : List ℚ := xs.set (xs.length - 1) v

/-- `SigmasEditor.adjust_sigmas` (sigmas_editor.py lines 47-71), up to the
returned tensor.  `adjustments = none` models a `sigmas_adjustments` string
that fails to parse as JSON, in which case the except-branch sets
`adjusted_values = []`.  A length mismatch falls back to a copy of the input.
The final `sigmas_np[-1] == 0` check raises `IndexError` on an empty input
schedule, modelled by the outer `none`. -/
def adjust_sigmas (sigmas : List ℚ) (adjustments : Option (List ℚ)) :
    Option (List ℚ) :=
  let adjusted_values := adjustments.getD []
  let adjusted_sigmas :=
    if adjusted_values.length ≠ sigmas.length then sigmas
    else adjusted_values
  match sigmas.getLast? with
  | none => none
  | some last =>
      if last = 0 then some (setLast adjusted_sigmas 0) else some adjusted_sigmas

end SigmasEditor

namespace NoiseInjection

/-- The arguments `cfg_function` reads out of its `args` dict
(noise_injection.py lines 94-97): the conditional and unconditional model
outputs (flat real tensors of one common shape), the guidance scale, and the
scalar extracted from the timestep tensor (line 105). -/
structure CfgArgs where
  cond : List ℝ
  uncond : List ℝ
  cond_scale : ℝ
  sigma : ℝ

/-- The standard guidance merge `uncond + cond_scale * (cond - uncond)`
(line 102), elementwise. -/
noncomputable def cfgMerge (args : CfgArgs) : List ℝ :=
  List.zipWith (fun u c => u + args.cond_scale * (c - u)) args.uncond args.cond

/-- Sampling progress from the scalar noise level (line 106):
`1.0 - min(sigma, 1.0)`. -/
noncomputable def progressOf (sigma : ℝ) : ℝ := 1 - min sigma 1

/-- Mean of a flat tensor. -/
noncomputable def tmean (xs : List ℝ) : ℝ := xs.sum / xs.length

/-- Bessel-corrected variance of a flat tensor, as used by
`torch.Tensor.std` (divisor `n - 1`).  For `n ≤ 1` torch produces NaN; here
the division by zero yields `0`, and in both settings the clamped branch of
`cfg_function` is not taken (NaN comparisons are false). -/
noncomputable def tvar (xs : List ℝ) : ℝ :=
  ((xs.map fun x => (x - tmean xs) ^ 2).sum) / ((xs.length - 1 : ℕ) : ℝ)

/-- `torch.Tensor.std`: square root of the Bessel-corrected variance. -/
noncomputable def tstd (xs : List ℝ) : ℝ := Real.sqrt (tvar xs)

/-- The magnitude clamp of `cfg_function` (lines 150-153): if the standard
deviation of the feature direction exceeds `3 ×` the standard deviation of the
merged guidance, rescale the direction by `cfg_std * 3 / feature_std`. -/
noncomputable def clampDirection (cfg_result feature_direction : List ℝ) :
    List ℝ :=
  let cfg_std := tstd cfg_result
  let feature_std := tstd feature_direction
  if feature_std > cfg_std * 3 then
    feature_direction.map fun x => x * (cfg_std * 3 / feature_std)
  else feature_direction

/-- `decay` (lines 139-143): linear ramp over the window when
`end_percent > start_percent`, else `1`. -/
noncomputable def decayOf (start_percent end_percent progress : ℝ) : ℝ :=
  if end_percent > start_percent then
    1 - (progress - start_percent) / (end_percent - start_percent)
  else 1

/-- `effective_strength = strength * decay` (line 144). -/
noncomputable def effectiveStrength (strength start_percent end_percent progress : ℝ) : ℝ :=
  strength * decayOf start_percent end_percent progress

/-- The state captured by one attachment of the `cfg_function` closure:
the encoded reference latent, the optional prepared mask, and the three node
parameters.  Tensors are kept in the latent shape of the generation tensors
(the resize/broadcast branches of lines 115-136 are identities then). -/
structure CfgParams where
  ref_latent : List ℝ
  mask_latent : Option (List ℝ)
  strength : ℝ
  start_percent : ℝ
  end_percent : ℝ

/-- One invocation of `cfg_function` (lines 92-167).  `counter` is the value
of the `step_counter` cell before the call; the result is the returned tensor,
the new counter, and whether this invocation emitted the `[FeatureInj]`
diagnostic record (line 163-165, only reached when the window check at
line 109 did not return early, and only while the incremented counter is
`≤ 3`). -/
noncomputable def cfg_function (p : CfgParams) (counter : ℕ) (args : CfgArgs) :
    List ℝ × ℕ × Bool :=
  let counter1 := counter + 1
  let cfg_result := cfgMerge args
  let progress := progressOf args.sigma
  if progress < p.start_percent ∨ progress > p.end_percent then
    (cfg_result, counter1, false)
  else
    let effective_strength :=
      effectiveStrength p.strength p.start_percent p.end_percent progress
    let feature_direction :=
      List.zipWith (fun r c => r - c) p.ref_latent cfg_result
    let feature_direction := clampDirection cfg_result feature_direction
    let feature_direction :=
      match p.mask_latent with
      | some mask => List.zipWith (fun d m => d * m) feature_direction mask
      | none => feature_direction
    let injected :=
      List.zipWith (fun c d => c + d * effective_strength) cfg_result feature_direction
    (injected, counter1, decide (counter1 ≤ 3))

/-- A model handle as both components see it: an optional guidance
post-processing hook (`set_model_sampler_cfg_function`) holding the state of
one `cfg_function` closure, and an optional denoising-function wrapper
(`set_model_unet_function_wrapper`) holding the state of one `unet_wrapper`
closure.  `clone` has value semantics. -/
structure Model where
  cfgHook : Option CfgParams := none
  unetHook : Option TimestepNoise.UnetParams := none

/-- `model.clone()`: the patched handle starts as a copy of the input. -/
def Model.clone (m : Model) : Model := m

/-- `LGNoiseInjection.apply` (noise_injection.py lines 76-171): with
`strength ≤ 0` the input model is returned untouched (line 77-78); otherwise
the clone gets the `cfg_function` hook whose closure captures the encoded
reference latent, the prepared mask and the parameters (line 169).
`ref_latent` stands for `self._encode_reference(vae, reference_image)` and
`mask_latent` for `self._prepare_mask(mask)`, both produced by external
collaborators at attach time. -/
noncomputable def apply (model : Model) (ref_latent : List ℝ)
    (strength start_percent end_percent : ℝ) (mask_latent : Option (List ℝ)) :
    Model :=
  if strength ≤ 0 then model
  else
    { model.clone with
      cfgHook := some ⟨ref_latent, mask_latent, strength, start_percent, end_percent⟩ }

/-- Guidance output of a model handle at one step: the host sampler computes
the plain guidance merge when no `cfg_function` hook is installed, and calls
the hook otherwise.  (Host contract, spec §4.1 step 1 / §6.) -/
noncomputable def modelGuidance (m : Model) (counter : ℕ) (args : CfgArgs) :
    List ℝ × ℕ × Bool :=
  match m.cfgHook with
  | none => (cfgMerge args, counter, false)
  | some p => cfg_function p counter args

/-- Timestep passed to the underlying denoising function at one step: the
original timestep when no `unet_wrapper` is installed, else the wrapper's
choice.  (Host contract, spec §4.2 / §6.) -/
def modelTimestepUsed (m : Model) (rand : TimestepNoise.RandSource)
    (counter : ℕ) (t : ℚ) : ℚ :=
  match m.unetHook with
  | none => t
  | some p => TimestepNoise.unetTimestep p rand (counter + 1) t

end NoiseInjection

namespace TimestepNoise

/-- `ZImageTimestepNoise.patch` (timestep_noise.py lines 71-201): the model
is cloned first (line 72); with `noise_strength ≤ 0` the clone is returned
with no wrapper (lines 74-75); otherwise the `unet_wrapper` closure state is
installed (line 199). -/
def patch (model : NoiseInjection.Model) (sigmas : List ℚ) (mode : NoiseMode)
    (noise_strength : ℚ) (seed : ℕ) (start_percent end_percent : ℚ)
    (mask : Option (List ℚ)) : NoiseInjection.Model :=
  let m := model.clone
  if noise_strength ≤ 0 then m
  else
    { m with
      unetHook :=
        some ⟨sigmas, mode, noise_strength, seed, start_percent, end_percent, mask⟩ }

end TimestepNoise

open TimestepNoise NoiseInjection

/-- C1: with `strength ≤ 0`, `LGNoiseInjection.apply` and
`ZImageTimestepNoise.patch` attach no hook and return the model value
unchanged; on an unhooked model every subsequent step's guidance output is
the baseline guidance merge and the denoising invocation receives the
original, unperturbed timestep. -/
theorem c1_strength_nonpos_noop (m : Model)
    (hc : m.cfgHook = none) (hu : m.unetHook = none)
    (ref : List ℝ) (s1 sp ep : ℝ) (mk : Option (List ℝ)) (hs1 : s1 ≤ 0)
    (sig : List ℚ) (mode : NoiseMode) (s2 : ℚ) (seed : ℕ) (sp2 ep2 : ℚ)
    (mk2 : Option (List ℚ)) (hs2 : s2 ≤ 0)
    (counter : ℕ) (args : CfgArgs) (rand : RandSource) (t : ℚ) :
    NoiseInjection.apply m ref s1 sp ep mk = m ∧
    TimestepNoise.patch m sig mode s2 seed sp2 ep2 mk2 = m ∧
    (modelGuidance (NoiseInjection.apply m ref s1 sp ep mk) counter args).1 =
      cfgMerge args ∧
    modelTimestepUsed (TimestepNoise.patch m sig mode s2 seed sp2 ep2 mk2)
      rand counter t = t := by
  have happly : NoiseInjection.apply m ref s1 sp ep mk = m := by
    simp [NoiseInjection.apply, hs1]
  have hpatch : TimestepNoise.patch m sig mode s2 seed sp2 ep2 mk2 = m := by
    simp [TimestepNoise.patch, Model.clone, hs2]
  refine ⟨happly, hpatch, ?_, ?_⟩
  · rw [happly]
    simp [modelGuidance, hc]
  · rw [hpatch]
    simp [modelTimestepUsed, hu]

/-- Witness for C1 at a concrete unhooked model and concrete parameters. -/
theorem c1_strength_nonpos_noop_witness :
    NoiseInjection.apply ⟨none, none⟩ [1] 0 0 1 none = ⟨none, none⟩ ∧
    TimestepNoise.patch ⟨none, none⟩ [1, 0] .flow 0 7 0 1 none = ⟨none, none⟩ ∧
    (modelGuidance (NoiseInjection.apply ⟨none, none⟩ [1] 0 0 1 none) 0
      ⟨[1], [0], 2, 1⟩).1 = cfgMerge ⟨[1], [0], 2, 1⟩ ∧
    modelTimestepUsed (TimestepNoise.patch ⟨none, none⟩ [1, 0] .flow 0 7 0 1 none)
      (fun _ => 0) 0 (1 / 2) = 1 / 2 :=
  c1_strength_nonpos_noop ⟨none, none⟩ rfl rfl [1] 0 0 1 none le_rfl
    [1, 0] .flow 0 7 0 1 none le_rfl 0 ⟨[1], [0], 2, 1⟩ (fun _ => 0) (1 / 2)

/-- C2: whenever the progress `1 - min(sigma, 1)` lies strictly below
`start_percent` or strictly above `end_percent`, `cfg_function` returns the
plain merge `uncond + cond_scale * (cond - uncond)` for every pair of
conditional/unconditional tensors, every guidance scale, every reference
signal and every mask. -/
theorem c2_outside_window_is_plain_merge (p : CfgParams) (counter : ℕ)
    (args : CfgArgs)
    (h : progressOf args.sigma < p.start_percent ∨
         progressOf args.sigma > p.end_percent) :
    (cfg_function p counter args).1 =
      List.zipWith (fun u c => u + args.cond_scale * (c - u))
        args.uncond args.cond := by
  rw [cfg_function, if_pos h]
  rfl

/-- Witness for C2: progress `0` lies below a window starting at `1/2`. -/
theorem c2_outside_window_is_plain_merge_witness :
    (progressOf (1 : ℝ) < (1 / 2 : ℝ) ∨ progressOf (1 : ℝ) > (3 / 5 : ℝ)) ∧
    (cfg_function ⟨[0], none, 1 / 2, 1 / 2, 3 / 5⟩ 0 ⟨[1], [0], 2, 1⟩).1 =
      List.zipWith (fun u c => u + (2 : ℝ) * (c - u)) [0] [1] := by
  have h : progressOf (1 : ℝ) < (1 / 2 : ℝ) ∨ progressOf (1 : ℝ) > (3 / 5 : ℝ) := by
    left
    norm_num [progressOf]
  exact ⟨h, c2_outside_window_is_plain_merge ⟨[0], none, 1 / 2, 1 / 2, 3 / 5⟩ 0
    ⟨[1], [0], 2, 1⟩ h⟩

/-- C6: the per-step perturbed timestep depends on the base seed and the step
index only through their sum `stored_seed + current_step` handed to the
random source, so for a fixed seed and step it is the same on every run. -/
theorem c6_perturbation_deterministic (mode : NoiseMode) (strength : ℚ)
    (rand : RandSource) (seed1 step1 seed2 step2 : ℕ)
    (h : seed1 + step1 = seed2 + step2) (t : ℚ) :
    perturbedTimestep mode strength rand seed1 step1 t =
      perturbedTimestep mode strength rand seed2 step2 t := by
  simp only [perturbedTimestep.eq_def, h]

/-- Witness for C6 at concrete seeds `5 + 2 = 3 + 4`. -/
theorem c6_perturbation_deterministic_witness :
    perturbedTimestep .flow (1 / 10) (fun n => 1 / (n + 1 : ℚ)) 5 2 (1 / 2) =
      perturbedTimestep .flow (1 / 10) (fun n => 1 / (n + 1 : ℚ)) 3 4 (1 / 2) :=
  c6_perturbation_deterministic .flow (1 / 10) (fun n => 1 / (n + 1 : ℚ))
    5 2 3 4 rfl (1 / 2)

/-- C7: with `end_percent > start_percent` the effective strength
`strength * (1 - (progress - start)/(end - start))` is non-increasing in
progress over the window, equals `strength` at the window start and `0` at
the window end; with `end_percent ≤ start_percent` the decay is `1`. -/
theorem c7_decay_ramp (strength sp ep : ℝ) (hs : 0 < strength) (h : ep > sp) :
    (∀ p1 p2, sp ≤ p1 → p1 ≤ p2 → p2 ≤ ep →
      effectiveStrength strength sp ep p2 ≤ effectiveStrength strength sp ep p1) ∧
    effectiveStrength strength sp ep sp = strength ∧
    effectiveStrength strength sp ep ep = 0 ∧
    (∀ sp2 ep2 pr, ep2 ≤ sp2 → decayOf sp2 ep2 pr = 1) := by
  have hd : (0 : ℝ) < ep - sp := by linarith
  refine ⟨?_, ?_, ?_, ?_⟩
  · intro p1 p2 _ h12 _
    rw [effectiveStrength, effectiveStrength, decayOf, decayOf, if_pos h, if_pos h]
    have hdiv : (p1 - sp) / (ep - sp) ≤ (p2 - sp) / (ep - sp) :=
      div_le_div_of_nonneg_right (by linarith) hd.le
    nlinarith
  · rw [effectiveStrength, decayOf, if_pos h]
    simp
  · rw [effectiveStrength, decayOf, if_pos h]
    rw [div_self (ne_of_gt hd)]
    ring
  · intro sp2 ep2 pr hle
    rw [decayOf, if_neg (not_lt.mpr hle)]

theorem setLast_length (xs : List ℚ) (v : ℚ) :
    (SigmasEditor.setLast xs v).length = xs.length := by
  rw [SigmasEditor.setLast, List.length_set]

theorem setLast_getLast (xs : List ℚ) (v : ℚ) (h : xs ≠ []) :
    (SigmasEditor.setLast xs v).getLast? = some v := by
  have hlen : xs.length - 1 < xs.length := by
    cases xs with
    | nil => exact absurd rfl h
    | cons a t => simp
  rw [List.getLast?_eq_getElem?, SigmasEditor.setLast, List.length_set]
  exact List.getElem?_set_eq_of_lt v hlen

theorem setLast_of_getLast_eq (xs : List ℚ) (v : ℚ)
    (h : xs.getLast? = some v) : SigmasEditor.setLast xs v = xs := by
  rw [List.getLast?_eq_getElem?] at h
  apply List.ext_getElem?
  intro n
  rcases eq_or_ne n (xs.length - 1) with hn | hn
  · subst hn
    rw [SigmasEditor.setLast, h]
    have hlen : xs.length - 1 < xs.length := by
      cases xs with
      | nil => simp at h
      | cons a t => simp
    exact List.getElem?_set_eq_of_lt v hlen
  · rw [SigmasEditor.setLast, List.getElem?_set_ne (Ne.symm hn)]

/-- C4: in `flow` mode, for every noise level in `[0,1]`, positive strength
and draw `r ∈ [0,1)`, the delta lies in
`[-min(strength, t), +min(strength, 1 - t)]` and the perturbed timestep,
being additionally clamped, lies in `[0, 1]`. -/
theorem c4_flow_mode_stays_in_unit_interval (t strength r : ℚ)
    (ht0 : 0 ≤ t) (ht1 : t ≤ 1) (hs : 0 < strength) (hr0 : 0 ≤ r) (hr1 : r < 1) :
    -min strength t ≤ flowDelta t strength r ∧
    flowDelta t strength r ≤ min strength (1 - t) ∧
    flowPerturb t strength r = clamp01 (t + flowDelta t strength r) ∧
    0 ≤ flowPerturb t strength r ∧ flowPerturb t strength r ≤ 1 := by
  have hup : (0 : ℚ) ≤ min strength (1 - t) := le_min hs.le (by linarith)
  have hdown : (0 : ℚ) ≤ min strength (t - 0) := le_min hs.le (by linarith)
  have hdelta : -min strength t ≤ flowDelta t strength r ∧
      flowDelta t strength r ≤ min strength (1 - t) := by
    rw [flowDelta]
    split_ifs with htot
    · constructor
      · have : 0 ≤ r * (min strength (t - 0) + min strength (1 - t)) :=
          mul_nonneg hr0 (by linarith)
        simp only [sub_zero] at this ⊢
        linarith
      · have : r * (min strength (t - 0) + min strength (1 - t)) ≤
            min strength (t - 0) + min strength (1 - t) := by
          nlinarith
        simp only [sub_zero] at this ⊢
        linarith
    · simp only [sub_zero] at hdown
      constructor <;> linarith
  refine ⟨hdelta.1, hdelta.2, rfl, ?_, ?_⟩
  · rw [flowPerturb, clamp01]
    exact le_min (le_max_right _ _) (by norm_num)
  · rw [flowPerturb, clamp01]
    exact min_le_right _ _

/-- Witness for C4 at `t = 1/2`, `strength = 1/4`, `r = 3/4`. -/
theorem c4_flow_mode_stays_in_unit_interval_witness :
    -min (1 / 4 : ℚ) (1 / 2) ≤ flowDelta (1 / 2) (1 / 4) (3 / 4) ∧
    flowDelta (1 / 2) (1 / 4) (3 / 4) ≤ min (1 / 4 : ℚ) (1 - 1 / 2) ∧
    flowPerturb (1 / 2) (1 / 4) (3 / 4) =
      clamp01 (1 / 2 + flowDelta (1 / 2) (1 / 4) (3 / 4)) ∧
    0 ≤ flowPerturb (1 / 2) (1 / 4) (3 / 4) ∧
    flowPerturb (1 / 2) (1 / 4) (3 / 4) ≤ 1 :=
  c4_flow_mode_stays_in_unit_interval (1 / 2) (1 / 4) (3 / 4)
    (by norm_num) (by norm_num) (by norm_num) (by norm_num) (by norm_num)

/-- C8 counterexample: an attachment with positive strength whose first
invocation arrives with progress `0`, below a window starting at `1/2`; the
early return at the window check skips the logging, so the first invocation
emits no diagnostic record, contradicting the claim that each of the first 3
invocations emits exactly one. -/
theorem c8_counterexample :
    (0 : ℝ) < (CfgParams.mk [0] none (1 / 2) (1 / 2) (3 / 5)).strength ∧
    (cfg_function (CfgParams.mk [0] none (1 / 2) (1 / 2) (3 / 5)) 0
      ⟨[1], [0], 2, 1⟩).2.2 = false := by
  constructor
  · norm_num
  · rw [cfg_function, if_pos]
    left
    norm_num [progressOf]

/-- C8 as amended: every invocation of `cfg_function` increments the step
counter by one, and an invocation emits a diagnostic record exactly when it
is among the first 3 invocations after attach AND its progress lies within
`[start_percent, end_percent]`; in particular no invocation after the third
ever emits a record. -/
theorem c8_amended_logging_window (p : CfgParams) (counter : ℕ)
    (args : CfgArgs) :
    (cfg_function p counter args).2.1 = counter + 1 ∧
    ((cfg_function p counter args).2.2 = true ↔
      counter + 1 ≤ 3 ∧
      ¬(progressOf args.sigma < p.start_percent ∨
        progressOf args.sigma > p.end_percent)) := by
  rw [cfg_function]
  split_ifs with h
  · simp [h]
  · simp [h]

/-- Witness for C7 on the window `[0, 1]` with strength `1`. -/
theorem c7_decay_ramp_witness :
    effectiveStrength 1 0 1 (1 / 2) ≤ effectiveStrength 1 0 1 (1 / 4) ∧
    effectiveStrength 1 0 1 0 = 1 ∧
    effectiveStrength 1 0 1 1 = 0 ∧
    decayOf 1 0 (1 / 2) = 1 := by
  obtain ⟨hmono, hstart, hend, hdeg⟩ :=
    c7_decay_ramp 1 0 1 (by norm_num) (by norm_num)
  exact ⟨hmono (1 / 4) (1 / 2) (by norm_num) (by norm_num) (by norm_num),
    hstart, hend, hdeg 1 0 (1 / 2) (by norm_num)⟩

/-- C9: when the adjustment string fails to parse as JSON (`none`) or parses
to a list whose length differs from the schedule's, `adjust_sigmas` raises no
error and returns the original schedule elementwise, for every nonempty input
schedule. -/
theorem c9_malformed_adjustments_fall_back (sigmas : List ℚ)
    (hne : sigmas ≠ []) (adjustments : Option (List ℚ))
    (h : adjustments = none ∨
         ∃ l, adjustments = some l ∧ l.length ≠ sigmas.length) :
    SigmasEditor.adjust_sigmas sigmas adjustments = some sigmas := by
  have hpos : 0 < sigmas.length := List.length_pos.mpr hne
  have hvals : (adjustments.getD []).length ≠ sigmas.length := by
    rcases h with h | ⟨l, hl, hlen⟩
    · subst h
      simpa using hpos.ne
    · subst hl
      simpa using hlen
  obtain ⟨last, hlast⟩ : ∃ v, sigmas.getLast? = some v :=
    ⟨sigmas.getLast hne, List.getLast?_eq_getLast_of_ne_nil hne⟩
  rw [SigmasEditor.adjust_sigmas]
  simp only [if_pos hvals, hlast]
  split_ifs with h0
  · subst h0
    rw [setLast_of_getLast_eq sigmas 0 hlast]
  · rfl

/-- Witness for C9: a two-element schedule with a one-element adjustment list
falls back to the original schedule. -/
theorem c9_malformed_adjustments_fall_back_witness :
    ([1, 0] : List ℚ) ≠ [] ∧
    SigmasEditor.adjust_sigmas [1, 0] (some [5]) = some [1, 0] :=
  ⟨by simp, c9_malformed_adjustments_fall_back [1, 0] (by simp) (some [5])
    (Or.inr ⟨[5], rfl, by norm_num⟩)⟩

/-- C10: for every nonempty input schedule and every adjustment input,
`adjust_sigmas` returns a list of the same length as the input, and whenever
the input schedule ends in `0` the output also ends in `0`, even when a
length-matching adjustment list supplies a nonzero final value. -/
theorem c10_length_and_terminal_zero_invariant (sigmas : List ℚ)
    (hne : sigmas ≠ []) (adjustments : Option (List ℚ)) :
    ∃ out, SigmasEditor.adjust_sigmas sigmas adjustments = some out ∧
      out.length = sigmas.length ∧
      (sigmas.getLast? = some 0 → out.getLast? = some 0) := by
  have hpos : 0 < sigmas.length := List.length_pos.mpr hne
  obtain ⟨last, hlast⟩ : ∃ v, sigmas.getLast? = some v :=
    ⟨sigmas.getLast hne, List.getLast?_eq_getLast_of_ne_nil hne⟩
  set adjusted : List ℚ :=
    if (adjustments.getD []).length ≠ sigmas.length then sigmas
    else adjustments.getD [] with hadj
  have hlen : adjusted.length = sigmas.length := by
    rw [hadj]
    split_ifs with hcond
    · rfl
    · exact not_ne_iff.mp hcond
  have hne2 : adjusted ≠ [] := by
    intro hnil
    rw [hnil] at hlen
    exact hpos.ne (by simpa using hlen)
  rw [SigmasEditor.adjust_sigmas]
  simp only [hlast, ← hadj]
  split_ifs with h0
  · exact ⟨SigmasEditor.setLast adjusted 0, rfl,
      by rw [setLast_length, hlen],
      fun _ => setLast_getLast adjusted 0 hne2⟩
  · refine ⟨adjusted, rfl, hlen, fun hz => ?_⟩
    exact absurd (Option.some_injective _ hz) h0

/-- Witness for C10: input schedule `[1, 0]` with the length-matching
adjustment list `[2, 5]`; the nonzero final value `5` is overridden to `0`. -/
theorem c10_length_and_terminal_zero_invariant_witness :
    ([1, 0] : List ℚ) ≠ [] ∧
    ∃ out, SigmasEditor.adjust_sigmas [1, 0] (some [2, 5]) = some out ∧
      out.length = ([1, 0] : List ℚ).length ∧
      (([1, 0] : List ℚ).getLast? = some 0 → out.getLast? = some 0) :=
  ⟨by simp, c10_length_and_terminal_zero_invariant [1, 0] (by simp) (some [2, 5])⟩

/-- Invariant of the schedule scan from any intermediate state: the final
best difference is no larger than the incoming one and than every remaining
element's difference; and either the best is unchanged, or it moved to some
remaining element whose difference is strictly below the incoming best and
strictly below every element scanned before it. -/
theorem matchFrom_spec (q : ℚ) (l : List ℚ) (i : ℕ) (md : ℚ) (mi : ℕ) :
    ((matchFrom q l i (md, mi)).1 ≤ md ∧
     ∀ j, j < l.length → (matchFrom q l i (md, mi)).1 ≤ |l.getD j 0 - q|) ∧
    (matchFrom q l i (md, mi) = (md, mi) ∨
     ∃ j, j < l.length ∧
       (matchFrom q l i (md, mi)).2 = i + j ∧
       (matchFrom q l i (md, mi)).1 = |l.getD j 0 - q| ∧
       (matchFrom q l i (md, mi)).1 < md ∧
       ∀ k, k < j → (matchFrom q l i (md, mi)).1 < |l.getD k 0 - q|) := by
  induction l generalizing i md mi with
  | nil => simp [matchFrom]
  | cons s rest ih =>
    by_cases h : |s - q| < md
    · have heq : matchFrom q (s :: rest) i (md, mi) =
          matchFrom q rest (i + 1) (|s - q|, i) := by
        simp only [matchFrom]
        rw [if_pos h]
      obtain ⟨⟨hle, hall⟩, hdisj⟩ := ih (i + 1) (|s - q|) i
      rw [heq]
      constructor
      · refine ⟨hle.trans h.le, ?_⟩
        intro j hj
        cases j with
        | zero => simpa using hle
        | succ j => simpa using hall j (by simpa using hj)
      · right
        rcases hdisj with hstay | ⟨j, hjlen, hidx, hval, hlt, hstrict⟩
        · refine ⟨0, by simp, ?_, ?_, ?_, ?_⟩
          · rw [hstay]
            simp
          · rw [hstay]
            simp
          · rw [hstay]
            exact h
          · intro k hk
            exact absurd hk (Nat.not_lt_zero k)
        · refine ⟨j + 1, by simpa using hjlen, ?_, ?_, hlt.trans h, ?_⟩
          · rw [hidx]
            omega
          · simpa using hval
          · intro k hk
            cases k with
            | zero => simpa using hlt
            | succ k => simpa using hstrict k (by omega)
    · have heq : matchFrom q (s :: rest) i (md, mi) =
          matchFrom q rest (i + 1) (md, mi) := by
        simp only [matchFrom]
        rw [if_neg h]
      obtain ⟨⟨hle, hall⟩, hdisj⟩ := ih (i + 1) md mi
      rw [heq]
      constructor
      · refine ⟨hle, ?_⟩
        intro j hj
        cases j with
        | zero => simpa using hle.trans (not_lt.mp h)
        | succ j => simpa using hall j (by simpa using hj)
      · rcases hdisj with hstay | ⟨j, hjlen, hidx, hval, hlt, hstrict⟩
        · exact Or.inl hstay
        · right
          refine ⟨j + 1, by simpa using hjlen, ?_, ?_, hlt, ?_⟩
          · rw [hidx]
            omega
          · simpa using hval
          · intro k hk
            cases k with
            | zero => simpa using hlt.trans_le (not_lt.mp h)
            | succ k => simpa using hstrict k (by omega)

/-- C5: for every nonempty schedule and query, `matched_idx` is in bounds,
its schedule value has minimal absolute difference to the query, every index
before it has a strictly larger difference (first minimal index wins, since
only strictly smaller differences replace the current best); and on the
schedule `[1.0, 0.5, 0.0]` with query `0.49` the matched index is `1` with
progress `0.5`. -/
theorem c5_nearest_index_first_wins (sigmas : List ℚ) (q : ℚ)
    (hne : sigmas ≠ []) :
    matchedIdx sigmas q < sigmas.length ∧
    (∀ j, j < sigmas.length →
      |sigmas.getD (matchedIdx sigmas q) 0 - q| ≤ |sigmas.getD j 0 - q|) ∧
    (∀ j, j < matchedIdx sigmas q →
      |sigmas.getD (matchedIdx sigmas q) 0 - q| < |sigmas.getD j 0 - q|) ∧
    matchedIdx [1, 1 / 2, 0] (49 / 100) = 1 ∧
    progressOfIdx (([1, 1 / 2, 0] : List ℚ).length - 1)
      (matchedIdx [1, 1 / 2, 0] (49 / 100)) = 1 / 2 := by
  have hconcrete : matchedIdx [1, 1 / 2, 0] (49 / 100) = 1 := by
    norm_num [matchedIdx, matchFrom, abs_of_nonneg]
  refine ?_
  cases sigmas with
  | nil => exact absurd rfl hne
  | cons s rest =>
    have hm : matchedIdx (s :: rest) q = (matchFrom q rest 1 (|s - q|, 0)).2 :=
      rfl
    obtain ⟨⟨hle, hall⟩, hdisj⟩ := matchFrom_spec q rest 1 (|s - q|) 0
    rcases hdisj with hstay | ⟨j, hjlen, hidx, hval, hlt, hstrict⟩
    · have hm0 : matchedIdx (s :: rest) q = 0 := by
        rw [hm, hstay]
      refine ⟨by simp [hm0], ?_, ?_, hconcrete, ?_⟩
      · intro j hj
        rw [hm0]
        cases j with
        | zero => simp
        | succ j =>
          have := hall j (by simpa using hj)
          rw [hstay] at this
          simpa using this
      · intro j hj
        rw [hm0] at hj
        exact absurd hj (Nat.not_lt_zero j)
      · rw [hconcrete]
        norm_num [progressOfIdx]
    · have hm1 : matchedIdx (s :: rest) q = 1 + j := by
        rw [hm, hidx]
      have hvalc : (s :: rest).getD (matchedIdx (s :: rest) q) 0 =
          rest.getD j 0 := by
        rw [hm1, Nat.add_comm, List.getD_cons_succ]
      refine ⟨?_, ?_, ?_, hconcrete, ?_⟩
      · rw [hm1]
        simp only [List.length_cons]
        omega
      · intro k hk
        rw [hvalc, ← hval]
        cases k with
        | zero => simpa using hlt.le
        | succ k => simpa using hall k (by simpa using hk)
      · intro k hk
        rw [hm1] at hk
        rw [hvalc, ← hval]
        cases k with
        | zero => simpa using hlt
        | succ k =>
          have := hstrict k (by omega)
          simpa using this
      · rw [hconcrete]
        norm_num [progressOfIdx]

/-- Witness for C5: the theorem at the schedule `[1, 1/2, 0]` with query
`49/100`. -/
theorem c5_nearest_index_first_wins_witness :
    matchedIdx [1, 1 / 2, 0] (49 / 100) < ([1, 1 / 2, 0] : List ℚ).length ∧
    (∀ j, j < ([1, 1 / 2, 0] : List ℚ).length →
      |([1, 1 / 2, 0] : List ℚ).getD (matchedIdx [1, 1 / 2, 0] (49 / 100)) 0 -
        49 / 100| ≤ |([1, 1 / 2, 0] : List ℚ).getD j 0 - 49 / 100|) ∧
    (∀ j, j < matchedIdx [1, 1 / 2, 0] (49 / 100) →
      |([1, 1 / 2, 0] : List ℚ).getD (matchedIdx [1, 1 / 2, 0] (49 / 100)) 0 -
        49 / 100| < |([1, 1 / 2, 0] : List ℚ).getD j 0 - 49 / 100|) ∧
    matchedIdx [1, 1 / 2, 0] (49 / 100) = 1 ∧
    progressOfIdx (([1, 1 / 2, 0] : List ℚ).length - 1)
      (matchedIdx [1, 1 / 2, 0] (49 / 100)) = 1 / 2 :=
  c5_nearest_index_first_wins [1, 1 / 2, 0] (49 / 100) (by simp)

theorem sum_map_mul_const (xs : List ℝ) (f : ℝ → ℝ) (k : ℝ) :
    (xs.map fun x => f x * k).sum = (xs.map f).sum * k := by
  induction xs with
  | nil => simp
  | cons a t ih => simp [ih, add_mul]

theorem sum_mul_const (xs : List ℝ) (k : ℝ) :
    (xs.map fun x => x * k).sum = xs.sum * k := by
  induction xs with
  | nil => simp
  | cons a t ih => simp [ih, add_mul]

theorem tvar_nonneg (xs : List ℝ) : 0 ≤ tvar xs := by
  rw [tvar]
  apply div_nonneg
  · apply List.sum_nonneg
    intro x hx
    obtain ⟨y, _, rfl⟩ := List.mem_map.mp hx
    positivity
  · exact Nat.cast_nonneg _

theorem tstd_nonneg (xs : List ℝ) : 0 ≤ tstd xs := Real.sqrt_nonneg _

theorem tmean_map_mul (xs : List ℝ) (k : ℝ) :
    tmean (xs.map fun x => x * k) = tmean xs * k := by
  rw [tmean, tmean, List.length_map, sum_mul_const, mul_div_right_comm]

theorem tvar_map_mul (xs : List ℝ) (k : ℝ) :
    tvar (xs.map fun x => x * k) = tvar xs * k ^ 2 := by
  rw [tvar, tvar, List.length_map, tmean_map_mul, List.map_map]
  have hfun : ((fun x => (x - tmean xs * k) ^ 2) ∘ fun x => x * k) =
      fun x => ((x - tmean xs) ^ 2) * k ^ 2 := by
    funext x
    simp only [Function.comp]
    ring
  rw [hfun, sum_map_mul_const, mul_div_right_comm]

theorem tstd_map_mul (xs : List ℝ) (k : ℝ) (hk : 0 ≤ k) :
    tstd (xs.map fun x => x * k) = tstd xs * k := by
  rw [tstd, tstd, tvar_map_mul, Real.sqrt_mul (tvar_nonneg xs), Real.sqrt_sq hk]

/-- C3: after the magnitude-clamp step, the standard deviation of the feature
direction never exceeds `3 × std(cfg_result)`, and whenever the unclamped
direction exceeds that bound the rescaled direction's standard deviation
equals the bound exactly; both statements are about the direction before the
multiplication by the effective strength. -/
theorem c3_magnitude_clamp_bound (cfg_result feature_direction : List ℝ) :
    tstd (clampDirection cfg_result feature_direction) ≤ 3 * tstd cfg_result ∧
    (tstd feature_direction > 3 * tstd cfg_result →
      tstd (clampDirection cfg_result feature_direction) =
        3 * tstd cfg_result) := by
  have hc : 0 ≤ tstd cfg_result := tstd_nonneg _
  simp only [clampDirection]
  split_ifs with h
  · have hsd0 : 0 < tstd feature_direction :=
      lt_of_le_of_lt (mul_nonneg hc (by norm_num)) h
    have hk : 0 ≤ tstd cfg_result * 3 / tstd feature_direction :=
      div_nonneg (mul_nonneg hc (by norm_num)) hsd0.le
    rw [tstd_map_mul _ _ hk]
    have heq : tstd feature_direction *
        (tstd cfg_result * 3 / tstd feature_direction) = 3 * tstd cfg_result := by
      field_simp
      ring
    rw [heq]
    exact ⟨le_rfl, fun _ => rfl⟩
  · push_neg at h
    exact ⟨by linarith, fun hgt => absurd hgt (by linarith)⟩

/-- Witness for C3: `cfg_result = [0, 0]` has standard deviation `0` while
`feature_direction = [1, -1]` has standard deviation `√2 > 0`, so the clamp
fires and rescales the direction to standard deviation exactly `0`. -/
theorem c3_magnitude_clamp_bound_witness :
    tstd [(1 : ℝ), -1] > 3 * tstd [(0 : ℝ), 0] ∧
    tstd (clampDirection [(0 : ℝ), 0] [(1 : ℝ), -1]) = 3 * tstd [(0 : ℝ), 0] := by
  have h0 : tstd [(0 : ℝ), 0] = 0 := by
    have hv : tvar [(0 : ℝ), 0] = 0 := by
      norm_num [tvar, tmean]
    rw [tstd, hv, Real.sqrt_zero]
  have h2 : tvar [(1 : ℝ), -1] = 2 := by
    norm_num [tvar, tmean]
  have h1 : 0 < tstd [(1 : ℝ), -1] := by
    rw [tstd, h2]
    exact Real.sqrt_pos.mpr (by norm_num)
  have hgt : tstd [(1 : ℝ), -1] > 3 * tstd [(0 : ℝ), 0] := by
    rw [h0]
    simpa using h1
  exact ⟨hgt, (c3_magnitude_clamp_bound [(0 : ℝ), 0] [(1 : ℝ), -1]).2 hgt⟩
